import Mathlib

/-!
Verification of `correct-platinum-fastq-sequence-identifier` (main.go).

Shallow embedding conventions:
  * A textual line (Go `[]byte` / `string`) is a `List Char`, called `Line`.
  * The `bufio.Scanner` over the gzip stream is a list of tokens (lines)
    still to be delivered, plus the value `Err()` reports once the tokens
    are exhausted (`none` models a clean EOF).
  * Go runtime panics (out-of-range indexing, failed `assert`) are modelled
    explicitly: partial operations return `Option`, and `Fetch` returns a
    dedicated `FetchRes.panic` result on the paths where the Go code would
    panic instead of returning.
  * Go `strings.IndexByte` returning `-1` is modelled by `Option Nat`
    (`none` stands for `-1`); the slice start `IndexByte(id,' ')+1` is then
    `0` exactly when the result is `none`.
-/

abbrev Line := List Char

/-- One fastq entry, as in `type record struct` of main.go.  The separator
line is validated but not stored, exactly as in the Go code. -/
structure Record where
  identifier : Line
  sequence : Line
  qualities : Line
deriving DecidableEq

/-- Go `strings.HasSuffix s suffix` / `bytes.HasSuffix`:
`len(s) >= len(suffix) && s[len(s)-len(suffix):] == suffix`. -/
def goHasSuffix (s suffix : Line) : Bool :=
  decide (suffix.length ≤ s.length) && decide (s.drop (s.length - suffix.length) = suffix)

def slash1 : Line := ['/', '1']

def slash2 : Line := ['/', '2']

/-- Go `strings.IndexByte l c` (`bytes.IndexByte`): index of the first
occurrence, `none` standing for Go's `-1`. -/
def indexByte? (c : Char) : Line → Option Nat
  | [] => none
  | x :: xs => if x = c then some 0 else (indexByte? c xs).map (· + 1)

/-- The identifier rewrite of both modes:
`identifier[strings.IndexByte(identifier, ' ')+1 : len(identifier)-2]`
with Go slice semantics.  The start index is `IndexByte+1` (hence `0` when
there is no space); the slice is defined exactly when
`len >= 2` (so that the end index `len-2` is non-negative) and
`start <= len-2`; outside those bounds Go panics, modelled by `none`. -/
def sliceStart (id : Line) : Nat :=
  match indexByte? ' ' id with
  | none => 0
  | some i => i + 1

def transformIdentifier (id : Line) : Option Line :=
  if 2 ≤ id.length ∧ sliceStart id ≤ id.length - 2 then
    some ((id.drop (sliceStart id)).take (id.length - 2 - sliceStart id))
  else
    none

/-- The output identifier line produced for an input identifier line: the
writer of either mode writes `'@'` followed by the transformed identifier
(main.go:64-66 and main.go:218-222). -/
def outIdentifierLine (id : Line) : Option Line :=
  (transformIdentifier id).map (fun mid => '@' :: mid)

/-- The per-record transform of the parallel stage (main.go:209-215):
rewrite the identifier field, keep sequence and qualities. -/
def transformRecord (r : Record) : Option Record :=
  (transformIdentifier r.identifier).map (fun i => { r with identifier := i })

/-- The bytes the parallel sink writer emits for one (already transformed)
record (main.go:218-230): `'@'`, the identifier, `'\n'`, the sequence,
`"\n+\n"`, the qualities, `'\n'`. -/
def emitRecord (r : Record) : Line :=
  '@' :: (r.identifier ++ '\n' :: (r.sequence ++ '\n' :: '+' :: '\n' :: (r.qualities ++ ['\n'])))

/-- The identifier-line validation shared by both modes: the line is
non-empty (an empty line would make `line[0]` panic), starts with `'@'`,
and ends with `"/1"` or `"/2"`. -/
def validIdentifier : Line → Bool
  | [] => false
  | c :: cs => decide (c = '@') && (goHasSuffix (c :: cs) slash1 || goHasSuffix (c :: cs) slash2)

/-- The separator-line validation: non-empty and starting with `'+'`. -/
def validSep : Line → Bool
  | [] => false
  | d :: _ => decide (d = '+')

/-- A four-line group passes validation (the sequence and qualities lines
are unconstrained in main.go). -/
def validGroup (id _seqL sepL _qualL : Line) : Bool :=
  validIdentifier id && validSep sepL

/-- Greedy parse of a whole token stream into records: the input is
well-formed iff this returns `some`.  Mirrors the group structure that
`source.Fetch` decodes (identifier, sequence, separator, qualities). -/
def parseAll : List Line → Option (List Record)
  | id :: seqL :: sepL :: qualL :: rest =>
    if validGroup id seqL sepL qualL then
      (parseAll rest).map (fun rs => ⟨id, seqL, qualL⟩ :: rs)
    else
      none
  | [] => some []
  | _ => none

/-- The `bufio.Scanner`: the tokens still to deliver, and what `Err()`
returns once they are exhausted (`none` = clean EOF). -/
structure Scanner where
  toks : List Line
  errAfter : Option String
deriving DecidableEq

/-- The `source` struct of main.go (the file/gzip handles are irrelevant to
the claims and omitted): scanner, the `data` field (`none` models the Go
`nil` interface value; `some l` models a `[]record` slice), and `err`. -/
structure Source where
  scanner : Scanner
  data : Option (List Record)
  err : Option String
deriving DecidableEq

/-- A fresh source over a clean stream of lines, as built by `newSource`. -/
def initSource (lines : List Line) : Source :=
  ⟨⟨lines, none⟩, none, none⟩

/-- `source.Err` (main.go:132-134). -/
def sourceErr (s : Source) : Option String :=
  s.err

/-- `source.Data` (main.go:186-188). -/
def sourceData (s : Source) : Option (List Record) :=
  s.data

/-- Result of a `Fetch` call: a normal return with the fetched count and
the new source state, or a Go runtime panic (out-of-range index). -/
inductive FetchRes where
  | ret (fetched : Nat) (s : Source)
  | panic (msg : String)
deriving DecidableEq

/-- Outcome of decoding one record inside the `Fetch` loop
(main.go:144-180): the scan at the start of a group failed (`eof`, with
what `scanner.Err()` reports), a validation check failed (`err`, with the
`errors.New` message and the scanner state after the consumed lines), the
indexing of an empty line panicked (`panic`), or a record was decoded
(`ok`, with the scanner advanced past its four lines). -/
inductive DecodeOut where
  | eof (errAfter : Option String)
  | err (msg : String) (sc' : Scanner)
  | panic (msg : String)
  | ok (r : Record) (sc' : Scanner)

/-- One iteration of the `Fetch` loop body (main.go:144-180), in the exact
order of the Go code: scan the identifier line (loop exit on failure),
index it (panics when empty), check the initial `'@'`, check the
`"/1"`/`"/2"` suffix, scan the sequence line, scan the intermediate line,
index it (panics when empty), check the initial `'+'`, scan the qualities
line, build the record. -/
def decodeOne (sc : Scanner) : DecodeOut :=
  match sc.toks with
  | [] => .eof sc.errAfter
  | id :: toks1 =>
    match id with
    | [] => .panic ("runtime error: index out of range")
    | c :: _ =>
      if c = '@' then
        if goHasSuffix id slash1 || goHasSuffix id slash2 then
          match toks1 with
          | [] => .err ("missing sequence line") ⟨[], sc.errAfter⟩
          | seqL :: toks2 =>
            match toks2 with
            | [] => .err ("missing intermediate line") ⟨[], sc.errAfter⟩
            | sepL :: toks3 =>
              match sepL with
              | [] => .panic ("runtime error: index out of range")
              | d :: _ =>
                if d = '+' then
                  match toks3 with
                  | [] => .err ("missing qualities line") ⟨[], sc.errAfter⟩
                  | qualL :: toks4 => .ok ⟨id, seqL, qualL⟩ ⟨toks4, sc.errAfter⟩
                else
                  .err ("malformed intermediate line, missing initial + sign")
                    ⟨toks3, sc.errAfter⟩
        else
          .err ("malformed identifier line, missing suffix") ⟨toks1, sc.errAfter⟩
      else
        .err ("malformed identifier line, missing initial @ sign") ⟨toks1, sc.errAfter⟩

/-- The loop of `source.Fetch` (main.go:140-184).  `oldErr` is the `s.err`
value on entry (the code only writes `s.err` on the return paths);
`remaining` counts the loop iterations still allowed (`n - fetched`);
`acc` is the `data` slice; `fetched` the loop counter.  The return paths
mirror the Go code: on a failed scan at a group start, `s.err` is set to
`s.scanner.Err()` and either the accumulated records are returned (clean
EOF) or zero records (scanner error); on a validation failure, `s.err` is
set to the message and zero records are returned, leaving `s.data` as the
`nil` stored on entry; a decoded record is appended and the loop
continues; at `fetched = n` the accumulated records are returned with
`s.err` untouched. -/
def fetchAux (oldErr : Option String) :
    Nat → Scanner → List Record → Nat → FetchRes
  | 0, sc, acc, fetched => .ret fetched ⟨sc, some acc, oldErr⟩
  | remaining + 1, sc, acc, fetched =>
    match decodeOne sc with
    | .eof none => .ret fetched ⟨sc, some acc, none⟩
    | .eof (some e) => .ret 0 ⟨sc, none, some e⟩
    | .err msg sc' => .ret 0 ⟨sc', none, some msg⟩
    | .panic msg => .panic msg
    | .ok r sc' => fetchAux oldErr remaining sc' (acc ++ [r]) (fetched + 1)

/-- `source.Fetch n` (main.go:140-184): `s.data` is set to `nil` on entry,
then the loop runs for at most `n` iterations. -/
def fetch (s : Source) (n : Nat) : FetchRes :=
  fetchAux s.err n s.scanner [] 0

/-- The state after a `Fetch` call that returns (unchanged on a panic). -/
def fetchState (s : Source) (n : Nat) : Source :=
  match fetch s n with
  | .ret _ s' => s'
  | .panic _ => s

/-- The fetched-count of a `Fetch` call that returns (`0` on a panic). -/
def fetchCount (s : Source) (n : Nat) : Nat :=
  match fetch s n with
  | .ret f _ => f
  | .panic _ => 0

/-- The sequential mode
`correctPlatinumFastqSequenceIdentifierSequential` (main.go:40-84), over a
clean token stream: the loop scans an identifier line, `assert`s that it
starts with `'@'` and has a `"/1"` or `"/2"` suffix, writes `'@'`, the
slice `line[bytes.IndexByte(line,' ')+1 : len(line)-2]` and `'\n'`, then
`assert`s and copies the sequence line, `assert`s the separator line
starts with `'+'` and writes `"+\n"`, and copies the qualities line.
`none` models a panic (failed `assert` or out-of-range index). -/
def seqRun : List Line → Option Line
  | [] => some []
  | id :: rest =>
    match id with
    | [] => none
    | c :: _ =>
      if c = '@' then
        if goHasSuffix id slash1 || goHasSuffix id slash2 then
          match transformIdentifier id with
          | none => none
          | some mid =>
            match rest with
            | [] => none
            | seqL :: rest2 =>
              match rest2 with
              | [] => none
              | sepL :: rest3 =>
                match sepL with
                | [] => none
                | d :: _ =>
                  if d = '+' then
                    match rest3 with
                    | [] => none
                    | qualL :: rest4 =>
                      match seqRun rest4 with
                      | none => none
                      | some out =>
                        some (('@' :: (mid ++ '\n' ::
                          (seqL ++ '\n' :: '+' :: '\n' :: (qualL ++ ['\n'])))) ++ out)
                  else none
        else none
      else none

/-- The identifier-line acceptance of the sequential mode's `assert`s
(main.go:62-63): `line[0] == '@'` and
`bytes.HasSuffix(line, "/1") || bytes.HasSuffix(line, "/2")`; an empty
line is not accepted (indexing it panics). -/
def seqIdentifierAccepted : Line → Bool
  | [] => false
  | c :: cs => decide (c = '@') && (goHasSuffix (c :: cs) slash1 || goHasSuffix (c :: cs) slash2)

/-- The identifier-line acceptance of the parallel mode's `source.Fetch`
(main.go:154-161): `r.identifier[0] == '@'` and
`strings.HasSuffix(r.identifier, "/1") || strings.HasSuffix(r.identifier, "/2")`;
an empty line is not accepted (indexing it panics). -/
def parIdentifierAccepted : Line → Bool
  | [] => false
  | c :: cs => decide (c = '@') && (goHasSuffix (c :: cs) slash1 || goHasSuffix (c :: cs) slash2)

/-! ## The strict-order sink stage

Modelled from the spec: the reorder buffer of `pipeline.StrictOrd` lives in
the pargo pipeline library, which is not part of this repository's sources;
spec §4.4 describes it as an expected-next counter `E` starting at `0` and
a buffering map from sequence number to batch, with the arrival rule: if
the arriving batch's number equals `E`, deliver it, increment `E`, and
repeatedly deliver-and-advance while `E`'s batch is in the buffer;
otherwise buffer the arrival under its sequence number.  The buffer map is
modelled as an association list. -/

/-- Look a key up in the buffer (association-list map). -/
def findKey (e : Nat) : List (Nat × α) → Option α
  | [] => none
  | (k, b) :: rest => if k = e then some b else findKey e rest

/-- Remove a key's entry from the buffer (association-list map). -/
def removeKey (e : Nat) : List (Nat × α) → List (Nat × α)
  | [] => []
  | (k, b) :: rest => if k = e then rest else (k, b) :: removeKey e rest

/-- State of the strict-order sink: the expected-next sequence number, the
reorder buffer, and the batches delivered (in delivery order). -/
structure SinkState (α : Type) where
  expected : Nat
  buffer : List (Nat × α)
  delivered : List (Nat × α)

theorem removeKey_length_lt (e : Nat) :
    ∀ buf : List (Nat × α), findKey e buf = some b → (removeKey e buf).length < buf.length := by
  intro buf
  induction buf with
  | nil => intro h; simp [findKey] at h
  | cons p rest ih =>
    intro h
    obtain ⟨k, c⟩ := p
    by_cases hk : k = e
    · simp [removeKey, hk]
    · simp [findKey, hk] at h
      simp only [removeKey, if_neg hk, List.length_cons]
      exact Nat.succ_lt_succ (ih h)

/-- Modelled from the spec (§4.4): after delivering the batch numbered
`e - 1`, repeatedly check the buffer for `e`'s batch and deliver-and-
advance while present. -/
def drain (e : Nat) (buf : List (Nat × α)) (deliv : List (Nat × α)) : SinkState α :=
  match h : findKey e buf with
  | none => ⟨e, buf, deliv⟩
  | some b => drain (e + 1) (removeKey e buf) (deliv ++ [(e, b)])
termination_by buf.length
decreasing_by exact removeKey_length_lt e buf h

/-- Modelled from the spec (§4.4): process one arrival at the sink. -/
def sinkArrive (st : SinkState α) (p : Nat × α) : SinkState α :=
  if p.1 = st.expected then
    drain (st.expected + 1) st.buffer (st.delivered ++ [p])
  else
    { st with buffer := p :: st.buffer }

/-- Modelled from the spec (§4.4): run the sink over a whole arrival
sequence, starting from expected-next `0` and an empty buffer, and return
the batches it delivered, in delivery order. -/
def sinkRun (arrivals : List (Nat × α)) : List (Nat × α) :=
  (arrivals.foldl sinkArrive ⟨0, [], []⟩).delivered

/-- Number a list of batches with consecutive sequence numbers starting at
`k`, as the Source does at creation (spec §3: starting at 0, incrementing
by one per batch). -/
def numbered (k : Nat) : List α → List (Nat × α)
  | [] => []
  | a :: l => (k, a) :: numbered (k + 1) l

/-! ## The driver and the full parallel pipeline

Modelled from the spec: the pipeline driver (`pipeline.Pipeline.Run` of the
pargo library, not part of this repository's sources) repeatedly calls
`Source.fetch` to produce batches until a zero-length no-error batch or an
error (spec §4.5), hands every non-empty batch to the parallel stage, which
applies the transform batch-wise and emits completions in arbitrary order
(spec §4.3), and the strict-order sink delivers them to the writer.  The
arbitrary completion order is modelled by an explicit schedule: a
permutation of the batch indices giving the order in which transformed
batches reach the sink. -/

/-- Apply `f` to every element, failing if any application fails
(the `Option` traversal used for batch transforms). -/
def mapOption (f : α → Option β) : List α → Option (List β)
  | [] => some []
  | a :: l =>
    match f a, mapOption f l with
    | some b, some bl => some (b :: bl)
    | _, _ => none

/-- The parallel stage's work on one batch (main.go:209-215): the transform
applied element-wise; `none` models a panic of the slice expression. -/
def transformBatch (b : List Record) : Option (List Record) :=
  mapOption transformRecord b

/-- Concatenate a batch sequence back into a record sequence. -/
def joinBatches : List (List Record) → List Record
  | [] => []
  | b :: bs => b ++ joinBatches bs

/-- The bytes the sink writer emits for one delivered batch
(main.go:216-232). -/
def emitBatch : List Record → Line
  | [] => []
  | r :: rs => emitRecord r ++ emitBatch rs

/-- Modelled from the spec (§4.5): the driver's fetch loop.  Repeatedly
call `fetch` with batch size `n`; stop with `none` on an error or a panic;
stop successfully on a zero-length no-error batch; otherwise take the
fetched batch from `Data()` and continue.  `fuel` bounds the number of
calls (the callers supply enough fuel for the whole stream). -/
def fetchAll (n : Nat) : Nat → Source → List (List Record) → Option (List (List Record))
  | 0, _, _ => none
  | fuel + 1, s, acc =>
    match fetch s n with
    | .panic _ => none
    | .ret f s' =>
      match s'.err with
      | some _ => none
      | none =>
        if f = 0 then some acc
        else fetchAll n fuel s' (acc ++ [s'.data.getD []])

/-- The full parallel mode
`correctPlatinumFastqSequenceIdentifierParallel` (main.go:190-236) over a
clean input stream: fetch all batches with batch size `n`, transform each
batch, deliver the numbered transformed batches to the strict-order sink
in the order given by `schedule` (the completion order of the workers),
and concatenate the bytes the sink writer emits.  `none` models an error
or panic anywhere in the pipeline. -/
def parallelRun (lines : List Line) (n : Nat) (schedule : List Nat) : Option Line :=
  match fetchAll n (lines.length + 1) (initSource lines) [] with
  | none => none
  | some batches =>
    match mapOption transformBatch batches with
    | none => none
    | some tbs =>
      let src := numbered 0 tbs
      let arrivals := schedule.filterMap (fun i => src.get? i)
      some (emitBatch (joinBatches ((sinkRun arrivals).map Prod.snd)))

/-- A valid completion schedule for `parallelRun lines n`: a permutation of
the batch indices (every worker count `W ≥ 1` and every per-batch timing
yields such a permutation). -/
def ValidSchedule (lines : List Line) (n : Nat) (schedule : List Nat) : Prop :=
  ∃ batches, fetchAll n (lines.length + 1) (initSource lines) [] = some batches ∧
    schedule.Perm (List.range batches.length)

/-- The canonical (schedule-independent) output: parse the whole stream,
transform every record, and emit the transformed records in input order. -/
def canonicalOutput (lines : List Line) : Option Line :=
  match parseAll lines with
  | none => none
  | some rs =>
    match mapOption transformRecord rs with
    | none => none
    | some ts => some (emitBatch ts)

/-! ## Spec-side description of the identifier rewrite -/

/-- Everything after the first space of the line (the line itself when it
has no space): the "discard everything up to and including the first
space" step of spec §6. -/
def dropThroughFirstSpace : Line → Line
  | [] => []
  | c :: cs => if c = ' ' then cs else dropThroughFirstSpace cs

/-- Modelled from the spec's words (§6): the identifier rewrite "discards
everything up to and including the first space, and discards the trailing
two-character mate-suffix, keeping only the middle token".  Stated with
`dropLast` twice for the two trailing characters; when the line has no
space nothing is discarded at the front. -/
def specStripIdentifier (id : Line) : Line :=
  ((if ' ' ∈ id then dropThroughFirstSpace id else id).dropLast).dropLast

/-! ## Basic lemmas about the Go string helpers -/

theorem indexByte?_eq_none_iff (c : Char) (l : Line) : indexByte? c l = none ↔ c ∉ l := by
  induction l with
  | nil => simp [indexByte?]
  | cons x xs ih =>
    simp only [indexByte?, List.mem_cons]
    by_cases hx : x = c
    · subst hx; simp
    · rw [if_neg hx, Option.map_eq_none', ih]
      constructor
      · intro h hc
        rcases hc with rfl | hm
        · exact hx rfl
        · exact h hm
      · intro h hm
        exact h (Or.inr hm)

theorem indexByte?_some (c : Char) :
    ∀ (l : Line) (i : Nat), indexByte? c l = some i → i < l.length ∧ l[i]? = some c := by
  intro l
  induction l with
  | nil => intro i h; simp [indexByte?] at h
  | cons x xs ih =>
    intro i h
    simp only [indexByte?] at h
    by_cases hx : x = c
    · rw [if_pos hx] at h
      injection h with h
      subst h
      exact ⟨by simp, by simp [hx]⟩
    · rw [if_neg hx, Option.map_eq_some'] at h
      obtain ⟨j, hj, rfl⟩ := h
      obtain ⟨hlt, hget⟩ := ih j hj
      exact ⟨Nat.succ_lt_succ hlt, by simpa using hget⟩

theorem goHasSuffix_iff (s suf : Line) :
    goHasSuffix s suf = true ↔ suf.length ≤ s.length ∧ s.drop (s.length - suf.length) = suf := by
  simp [goHasSuffix]

/-- Unfolding of the Source's identifier validation: the line starts with
`'@'`, has length at least 2, and its last two characters are `'/'`
followed by `'1'` or `'2'`. -/
theorem validIdentifier_spec (id : Line) (h : validIdentifier id = true) :
    ∃ cs, id = '@' :: cs ∧ 2 ≤ id.length ∧
      ∃ x, (x = '1' ∨ x = '2') ∧ id.drop (id.length - 2) = ['/', x] := by
  match id with
  | [] => simp [validIdentifier] at h
  | c :: cs =>
    simp only [validIdentifier, Bool.and_eq_true, Bool.or_eq_true, decide_eq_true_eq] at h
    obtain ⟨rfl, hs⟩ := h
    refine ⟨cs, rfl, ?_, ?_⟩
    · rcases hs with hs | hs <;> rw [goHasSuffix_iff] at hs <;>
        simpa [slash1, slash2] using hs.1
    · rcases hs with hs | hs <;> rw [goHasSuffix_iff] at hs
      · exact ⟨'1', Or.inl rfl, by simpa [slash1] using hs.2⟩
      · exact ⟨'2', Or.inr rfl, by simpa [slash2] using hs.2⟩

theorem validIdentifier_len3 (id : Line) (h : validIdentifier id = true) : 3 ≤ id.length := by
  obtain ⟨cs, rfl, h2, x, _hx, hd⟩ := validIdentifier_spec _ h
  by_contra hlt
  have hlen : ('@' :: cs).length = 2 := by omega
  rw [hlen] at hd
  simp only [Nat.sub_self, List.drop_zero] at hd
  injection hd with h1 _
  exact absurd h1 (by decide)

theorem valid_last_two (id : Line) (x : Char) (h2 : 2 ≤ id.length)
    (hd : id.drop (id.length - 2) = ['/', x]) :
    id[id.length - 2]? = some '/' ∧ id[id.length - 1]? = some x := by
  constructor
  · have h := List.getElem?_drop id (id.length - 2) 0
    rw [hd] at h
    simpa using h.symm
  · have h := List.getElem?_drop id (id.length - 2) 1
    rw [hd] at h
    have he : id.length - 2 + 1 = id.length - 1 := by omega
    rw [he] at h
    simpa using h.symm

/-- The slice start `IndexByte(id,' ')+1` never exceeds `len(id)-2` for a
validated identifier: the last two characters are the mate-suffix and are
not spaces, so the first space (if any) lies strictly before them. -/
theorem sliceStart_le (id : Line) (hv : validIdentifier id = true) :
    sliceStart id ≤ id.length - 2 := by
  obtain ⟨cs, hid, h2, x, hx, hd⟩ := validIdentifier_spec _ hv
  unfold sliceStart
  cases hidx : indexByte? ' ' id with
  | none => exact Nat.zero_le _
  | some i =>
    obtain ⟨hlt, hget⟩ := indexByte?_some ' ' id i hidx
    obtain ⟨g1, g2⟩ := valid_last_two id x h2 hd
    have h1 : i ≠ id.length - 2 := by
      intro he
      rw [he, g1] at hget
      injection hget with hc
      exact absurd hc (by decide)
    have h1' : i ≠ id.length - 1 := by
      intro he
      rw [he, g2] at hget
      injection hget with hc
      rcases hx with rfl | rfl <;> exact absurd hc (by decide)
    show i + 1 ≤ id.length - 2
    omega

theorem transformIdentifier_of_valid (id : Line) (hv : validIdentifier id = true) :
    transformIdentifier id =
      some ((id.drop (sliceStart id)).take (id.length - 2 - sliceStart id)) := by
  have h3 := validIdentifier_len3 id hv
  rw [transformIdentifier, if_pos ⟨by omega, sliceStart_le id hv⟩]

theorem dropLast_dropLast (l : List α) : l.dropLast.dropLast = l.take (l.length - 2) := by
  rw [List.dropLast_eq_take, List.dropLast_eq_take, List.length_take, List.take_take]
  congr 1
  omega

theorem dropThroughFirstSpace_eq (l : Line) (i : Nat) (h : indexByte? ' ' l = some i) :
    dropThroughFirstSpace l = l.drop (i + 1) := by
  induction l generalizing i with
  | nil => simp [indexByte?] at h
  | cons x xs ih =>
    simp only [indexByte?] at h
    by_cases hx : x = ' '
    · rw [if_pos hx] at h
      injection h with h
      subst h
      simp [dropThroughFirstSpace, hx]
    · rw [if_neg hx, Option.map_eq_some'] at h
      obtain ⟨j, hj, rfl⟩ := h
      simp [dropThroughFirstSpace, hx, ih j hj]

/-- On a validated identifier the Go slice
`id[IndexByte(id,' ')+1 : len(id)-2]` computes exactly the spec's
description: drop everything up to and including the first space (nothing
when there is no space), then drop the trailing two characters. -/
theorem transform_eq_specStrip (id : Line) :
    (id.drop (sliceStart id)).take (id.length - 2 - sliceStart id) =
      specStripIdentifier id := by
  unfold specStripIdentifier
  by_cases hsp : ' ' ∈ id
  · have hne : indexByte? ' ' id ≠ none := by
      rw [ne_eq, indexByte?_eq_none_iff]; exact fun h => h hsp
    obtain ⟨i, hi⟩ : ∃ i, indexByte? ' ' id = some i := by
      cases h : indexByte? ' ' id with
      | none => exact absurd h hne
      | some i => exact ⟨i, rfl⟩
    have hdts := dropThroughFirstSpace_eq id i hi
    have hss : sliceStart id = i + 1 := by unfold sliceStart; rw [hi]
    rw [if_pos hsp, hdts, dropLast_dropLast, hss, List.length_drop]
    congr 1
    omega
  · have hss : sliceStart id = 0 := by
      unfold sliceStart
      rw [(indexByte?_eq_none_iff ' ' id).2 hsp]
    rw [if_neg hsp, dropLast_dropLast, hss]
    simp

/-- C10: for every identifier that passes the Source's validation (begins
with `'@'`, ends with `"/1"` or `"/2"`, hence has length at least 3), the
Go slice `id[IndexByte(id,' ')+1 : len(id)-2]` is within bounds, so the
transform is total (it returns `some`, never a panic/TransformError); and
when the identifier contains no space the kept portion starts at index 0
and retains the leading `'@'`, so the output identifier line begins
`"@@"`. -/
theorem claimC10_transform_total_on_validated (id : Line)
    (hv : validIdentifier id = true) :
    3 ≤ id.length ∧
    ∃ mid, transformIdentifier id = some mid ∧
      (' ' ∉ id → ∃ t, outIdentifierLine id = some ('@' :: '@' :: t)) := by
  refine ⟨validIdentifier_len3 id hv,
    (id.drop (sliceStart id)).take (id.length - 2 - sliceStart id),
    transformIdentifier_of_valid id hv, ?_⟩
  intro hsp
  have hss : sliceStart id = 0 := by
    unfold sliceStart
    rw [(indexByte?_eq_none_iff ' ' id).2 hsp]
  obtain ⟨cs, rfl, h2, x, hx, hd⟩ := validIdentifier_spec _ hv
  have h3 := validIdentifier_len3 _ hv
  refine ⟨cs.take (cs.length - 2), ?_⟩
  rw [outIdentifierLine, transformIdentifier_of_valid _ hv, hss]
  simp only [List.drop_zero, Nat.sub_zero, Option.map_some']
  have he : ('@' :: cs).length - 2 = (cs.length - 2) + 1 := by
    simp only [List.length_cons] at h3 ⊢
    omega
  rw [he, List.take_succ_cons]

/-- Witness for C10 at the concrete space-free identifier `"@no-space/1"`. -/
theorem claimC10_witness :
    validIdentifier (("@no-space/1").toList) = true ∧
    (3 ≤ (("@no-space/1").toList : Line).length ∧
    ∃ mid, transformIdentifier (("@no-space/1").toList) = some mid ∧
      (' ' ∉ (("@no-space/1").toList : Line) →
        ∃ t, outIdentifierLine (("@no-space/1").toList) = some ('@' :: '@' :: t))) :=
  ⟨by decide, claimC10_transform_total_on_validated (("@no-space/1").toList) (by decide)⟩

/-- C3: for every record accepted by validation, the per-record transform
rewrites the identifier line by discarding everything up to and including
the first space and discarding the trailing two characters, and the
emitted line-group's separator line is the single character `'+'`
regardless of the input separator line (which is only required to start
with `'+'` and is otherwise discarded). -/
theorem claimC3_transform_description (id seqL sepL qualL : Line)
    (hg : validGroup id seqL sepL qualL = true) :
    ∃ r', transformRecord ⟨id, seqL, qualL⟩ = some r' ∧
      r'.identifier = specStripIdentifier id ∧
      emitRecord r' =
        '@' :: (specStripIdentifier id ++ '\n' ::
          (seqL ++ '\n' :: '+' :: '\n' :: (qualL ++ ['\n']))) := by
  have hv : validIdentifier id = true := by
    simp only [validGroup, Bool.and_eq_true] at hg
    exact hg.1
  refine ⟨⟨specStripIdentifier id, seqL, qualL⟩, ?_, rfl, rfl⟩
  rw [transformRecord]
  simp only [transformIdentifier_of_valid id hv, transform_eq_specStrip id,
    Option.map_some']

/-- Witness for C3 at the concrete group
`["@a b/1", "ACGT", "+comment", "IIII"]`. -/
theorem claimC3_witness :
    validGroup (("@a b/1").toList) (("ACGT").toList) (("+comment").toList)
      (("IIII").toList) = true ∧
    ∃ r', transformRecord ⟨("@a b/1").toList, ("ACGT").toList, ("IIII").toList⟩ = some r' ∧
      r'.identifier = specStripIdentifier (("@a b/1").toList) ∧
      emitRecord r' =
        '@' :: (specStripIdentifier (("@a b/1").toList) ++ '\n' ::
          ((("ACGT").toList : Line) ++ '\n' :: '+' :: '\n' ::
            ((("IIII").toList : Line) ++ ['\n']))) :=
  ⟨by decide, claimC3_transform_description (("@a b/1").toList) (("ACGT").toList)
    (("+comment").toList) (("IIII").toList) (by decide)⟩

/-- C4 counterexample: on the spec's own example identifiers the transform
does not yield `"@token"` / `"@other-token"` — the slice
`id[IndexByte(id,' ')+1 : len(id)-2]` removes only the final two
characters, so the space that precedes the mate-suffix is kept. -/
theorem claimC4_counterexample :
    outIdentifierLine (("@X token /1").toList) ≠ some (("@token").toList) ∧
    outIdentifierLine (("@Y other-token /2").toList) ≠ some (("@other-token").toList) := by
  decide

/-- C4 as amended: the identifier transform applied to `"@X token /1"`
yields exactly `"@token "` (with the space that preceded the mate-suffix
retained), and applied to `"@Y other-token /2"` yields exactly
`"@other-token "`. -/
theorem claimC4_amended :
    outIdentifierLine (("@X token /1").toList) = some (("@token ").toList) ∧
    outIdentifierLine (("@Y other-token /2").toList) = some (("@other-token ").toList) := by
  decide

/-- C9 counterexample: the sequential mode's `assert` on the identifier
line (main.go:63) does verify the mate-suffix: the identifier `"@a"`,
which starts with `'@'` but lacks a `"/1"`/`"/2"` suffix, is rejected by
the sequential validation (and by the parallel one), contradicting the
claim that the sequential path does not verify the exact mate-suffix. -/
theorem claimC9_counterexample :
    (("@a").toList : Line).headI = '@' ∧
    seqIdentifierAccepted (("@a").toList) = false ∧
    parIdentifierAccepted (("@a").toList) = false := by
  decide

/-- C9 as amended: the sequential mode's validation of the identifier line
(`assert(line[0] == '@')`, `assert(HasSuffix "/1" || HasSuffix "/2")`) and
the parallel mode's validation (main.go:154-161) accept exactly the same
identifier lines, including the mate-suffix check; the two modes differ
only in how a violation is signalled (panic versus a stored error). -/
theorem claimC9_amended (l : Line) :
    seqIdentifierAccepted l = parIdentifierAccepted l := by
  cases l <;> rfl

/-! ## Lemmas about `decodeOne` and the `Fetch` loop -/

theorem decodeOne_eof (sc : Scanner) (ea : Option String) (h : decodeOne sc = .eof ea) :
    sc.toks = [] ∧ sc.errAfter = ea := by
  obtain ⟨toks, ea'⟩ := sc
  cases toks with
  | nil =>
    refine ⟨rfl, ?_⟩
    simpa [decodeOne] using h
  | cons id t1 =>
    exfalso
    simp only [decodeOne] at h
    repeat' split at h
    all_goals exact DecodeOut.noConfusion h

/-- A group whose four lines pass validation decodes to its record and
consumes exactly those four lines. -/
theorem decodeOne_ok_of_validGroup (id seqL sepL qualL : Line) (rest : List Line)
    (ea : Option String) (hg : validGroup id seqL sepL qualL = true) :
    decodeOne ⟨id :: seqL :: sepL :: qualL :: rest, ea⟩ =
      .ok ⟨id, seqL, qualL⟩ ⟨rest, ea⟩ := by
  simp only [validGroup, Bool.and_eq_true] at hg
  obtain ⟨hv, hsep⟩ := hg
  cases id with
  | nil => simp [validIdentifier] at hv
  | cons c cs =>
    cases sepL with
    | nil => simp [validSep] at hsep
    | cons d ds =>
      simp only [validIdentifier, Bool.and_eq_true, decide_eq_true_eq] at hv
      simp only [validSep, decide_eq_true_eq] at hsep
      obtain ⟨hc, hs⟩ := hv
      subst hc
      subst hsep
      rw [Bool.or_eq_true] at hs
      rcases hs with hs | hs <;> simp [decodeOne, hs]

/-- A `Fetch` call that finds the token stream already exhausted with a
clean scanner returns zero records, an empty (non-`nil`) batch, and sets
`s.err` to `nil` — whatever `s.err` held before the call. -/
theorem fetch_at_eof (s : Source) (n : Nat) (hn : 1 ≤ n)
    (h1 : s.scanner.toks = []) (h2 : s.scanner.errAfter = none) :
    fetch s n = .ret 0 ⟨s.scanner, some [], none⟩ := by
  cases n with
  | zero => omega
  | succ m =>
    have hd : decodeOne s.scanner = .eof none := by
      unfold decodeOne
      rw [h1, h2]
    rw [fetch]
    rw [fetchAux, hd]

/-- Error returns of the `Fetch` loop carry zero records and a `nil`
`data` field (given that no error was latched on entry). -/
theorem fetchAux_ret_err (m : Nat) :
    ∀ (sc : Scanner) (acc : List Record) (k f : Nat) (s' : Source),
      fetchAux none m sc acc k = .ret f s' → s'.err ≠ none →
      f = 0 ∧ s'.data = none := by
  induction m with
  | zero =>
    intro sc acc k f s' h he
    simp only [fetchAux] at h
    injection h with h1 h2
    subst h2
    exact absurd rfl he
  | succ m ih =>
    intro sc acc k f s' h he
    simp only [fetchAux] at h
    split at h
    · injection h with h1 h2
      subst h2
      exact absurd rfl he
    · injection h with h1 h2
      subst h2
      exact ⟨h1.symm, rfl⟩
    · injection h with h1 h2
      subst h2
      exact ⟨h1.symm, rfl⟩
    · exact FetchRes.noConfusion h
    · exact ih _ _ _ _ _ h he

/-- Facts about a non-panicking `Fetch` loop run that ends with no error:
the count never shrinks; a count short of the allowance means the loop hit
a clean end of the token stream, with all decoded records returned; and a
count equal to the entry count (with at least one allowed iteration) means
the stream was already exhausted when the loop started. -/
theorem fetchAux_ret_none (m : Nat) :
    ∀ (e₀ : Option String) (sc : Scanner) (acc : List Record) (k f : Nat) (s' : Source),
      fetchAux e₀ m sc acc k = .ret f s' → s'.err = none → acc.length = k →
      k ≤ f ∧
      (f < k + m → s'.scanner.toks = [] ∧ s'.scanner.errAfter = none ∧
        ∃ d, s'.data = some d ∧ d.length = f) ∧
      (f = k ∧ 1 ≤ m → sc.toks = [] ∧ sc.errAfter = none ∧ s'.data = some acc) := by
  induction m with
  | zero =>
    intro e₀ sc acc k f s' h he hacc
    simp only [fetchAux] at h
    injection h with h1 h2
    subst h2
    subst h1
    exact ⟨le_rfl, fun hlt => absurd hlt (by omega), fun hx => absurd hx.2 (by omega)⟩
  | succ m ih =>
    intro e₀ sc acc k f s' h he hacc
    simp only [fetchAux] at h
    split at h
    · rename_i heq
      injection h with h1 h2
      subst h2
      subst h1
      obtain ⟨ht, hea⟩ := decodeOne_eof sc none heq
      exact ⟨le_rfl, fun _ => ⟨ht, hea, acc, rfl, hacc⟩, fun _ => ⟨ht, hea, rfl⟩⟩
    · injection h with h1 h2
      subst h2
      exact absurd he (by simp)
    · injection h with h1 h2
      subst h2
      exact absurd he (by simp)
    · exact FetchRes.noConfusion h
    · rename_i r sc' heq
      have hacc' : (acc ++ [r]).length = k + 1 := by simp [hacc]
      obtain ⟨h1, h2, h3⟩ := ih e₀ sc' (acc ++ [r]) (k + 1) f s' h he hacc'
      exact ⟨by omega, fun hlt => h2 (by omega), fun hx => absurd hx.1 (by omega)⟩

/-- C6: with a positive batch size, a `Fetch` call that returns without an
error and with fewer than `n` records did hit the clean end of the stream
exactly on a record boundary and returned all records decoded in this
call; it returns zero records with no error precisely when the stream was
already exhausted (cleanly) before the call began — and then the batch is
empty, so empty input yields zero records and no error. -/
theorem claimC6_short_batch_only_at_clean_eof (s : Source) (n : Nat) (hn : 1 ≤ n)
    (f : Nat) (s' : Source) (h : fetch s n = .ret f s') :
    (s'.err = none → f < n →
      s'.scanner.toks = [] ∧ s'.scanner.errAfter = none ∧
      ∃ d, s'.data = some d ∧ d.length = f) ∧
    ((f = 0 ∧ s'.err = none) ↔ (s.scanner.toks = [] ∧ s.scanner.errAfter = none)) ∧
    (s.scanner.toks = [] → s.scanner.errAfter = none → s'.data = some []) := by
  rw [fetch] at h
  refine ⟨?_, ⟨?_, ?_⟩, ?_⟩
  · intro he hlt
    obtain ⟨h1, h2, h3⟩ := fetchAux_ret_none n s.err s.scanner [] 0 f s' h he rfl
    exact h2 (by omega)
  · rintro ⟨rfl, he⟩
    obtain ⟨h1, h2, h3⟩ := fetchAux_ret_none n s.err s.scanner [] 0 0 s' h he rfl
    obtain ⟨ht, hea, _⟩ := h3 ⟨rfl, hn⟩
    exact ⟨ht, hea⟩
  · rintro ⟨ht, hea⟩
    have hf := fetch_at_eof s n hn ht hea
    rw [fetch] at hf
    rw [hf] at h
    injection h with h1 h2
    subst h2
    exact ⟨h1.symm, rfl⟩
  · intro ht hea
    have hf := fetch_at_eof s n hn ht hea
    rw [fetch] at hf
    rw [hf] at h
    injection h with h1 h2
    subst h2
    rfl

def c6State : Source := ⟨⟨[], none⟩, some [], none⟩

/-- Witness for C6: on empty input, `Fetch 1` returns zero records, no
error, and an empty batch. -/
theorem claimC6_witness :
    1 ≤ 1 ∧ fetch (initSource []) 1 = .ret 0 c6State ∧
    ((c6State.err = none → 0 < 1 →
      c6State.scanner.toks = [] ∧ c6State.scanner.errAfter = none ∧
      ∃ d, c6State.data = some d ∧ d.length = 0) ∧
    ((0 = 0 ∧ c6State.err = none) ↔
      ((initSource []).scanner.toks = [] ∧ (initSource []).scanner.errAfter = none)) ∧
    ((initSource []).scanner.toks = [] → (initSource []).scanner.errAfter = none →
      c6State.data = some [])) :=
  ⟨le_rfl, by decide,
    claimC6_short_batch_only_at_clean_eof (initSource []) 1 le_rfl 0 c6State (by decide)⟩

/-- C7: if a `Fetch` call (entered with no latched error) returns with an
error, it returns zero records, `Data()` is the `nil` value (no records
decoded earlier in the call are exposed), and the error is observable
afterwards via `Err()`. -/
theorem claimC7_decode_failure_returns_no_partial_batch (s : Source) (n : Nat)
    (f : Nat) (s' : Source) (hs : s.err = none) (h : fetch s n = .ret f s')
    (e : String) (he : s'.err = some e) :
    f = 0 ∧ sourceData s' = none ∧ sourceErr s' = some e := by
  rw [fetch, hs] at h
  obtain ⟨h1, h2⟩ := fetchAux_ret_err n s.scanner [] 0 f s' h (by rw [he]; exact fun hc => Option.noConfusion hc)
  exact ⟨h1, h2, he⟩

def c7State : Source := ⟨⟨[], none⟩, none, some ("malformed identifier line, missing suffix")⟩

/-- Witness for C7 on the malformed single-line input `"@a"`. -/
theorem claimC7_witness :
    (initSource [("@a").toList]).err = none ∧
    fetch (initSource [("@a").toList]) 1 = .ret 0 c7State ∧
    c7State.err = some ("malformed identifier line, missing suffix") ∧
    (0 = 0 ∧ sourceData c7State = none ∧
      sourceErr c7State = some ("malformed identifier line, missing suffix")) :=
  ⟨rfl, by decide, rfl,
    claimC7_decode_failure_returns_no_partial_batch (initSource [("@a").toList]) 1 0 c7State
      rfl (by decide) _ rfl⟩

/-- C8 counterexample: the Source's error is not sticky.  On the input
whose only line is the malformed identifier `"@a"`, the first `Fetch 1`
call latches an error (`Err()` is non-nil), but a second `Fetch 1` call
finds the token stream exhausted with a clean scanner and executes
`s.err = s.scanner.Err()`, storing `nil` — so `Err()` is reset to nil by
a subsequent operation. -/
theorem claimC8_counterexample :
    sourceErr (fetchState (initSource [("@a").toList]) 1) ≠ none ∧
    sourceErr (fetchState (fetchState (initSource [("@a").toList]) 1) 1) = none := by
  decide

/-- C8 as amended: `Err()` is a pure read of the `err` field and an error
persists only while `Fetch` is not called again: any `Fetch` call that
finds the token stream exhausted with a clean scanner overwrites a
previously latched error with `nil` (`s.err = s.scanner.Err()`), so the
error is not sticky across further `Fetch` calls. -/
theorem claimC8_amended_error_not_sticky (s : Source) (n : Nat) (e : String)
    (hn : 1 ≤ n) (he : s.err = some e)
    (h1 : s.scanner.toks = []) (h2 : s.scanner.errAfter = none) :
    sourceErr s = some e ∧ sourceErr (fetchState s n) = none := by
  refine ⟨he, ?_⟩
  rw [fetchState, fetch_at_eof s n hn h1 h2]
  rfl

def c8State : Source := ⟨⟨[], none⟩, none, some ("malformed identifier line, missing suffix")⟩

/-- Witness for the amended C8 at the state reached after fetching from
the malformed input `"@a"`. -/
theorem claimC8_witness :
    1 ≤ 1 ∧ c8State.err = some ("malformed identifier line, missing suffix") ∧
    c8State.scanner.toks = [] ∧ c8State.scanner.errAfter = none ∧
    (sourceErr c8State = some ("malformed identifier line, missing suffix") ∧
      sourceErr (fetchState c8State 1) = none) :=
  ⟨le_rfl, rfl, rfl, rfl,
    claimC8_amended_error_not_sticky c8State 1 _ le_rfl rfl rfl rfl⟩

/-- C5 counterexample: a violation of a structural rule on an empty line
is not reported as an error value at all: an empty identifier line makes
`Fetch` panic (`r.identifier[0]` is an out-of-range index), and the
sequential mode also panics on it — contradicting the claim that every
violation, including an empty offending line, yields a `FormatError`
result and never a panic. -/
theorem claimC5_counterexample :
    fetch (initSource [[]]) 1 = .panic ("runtime error: index out of range") ∧
    seqRun [[]] = none := by
  decide

set_option maxHeartbeats 1000000 in
/-- C5 as amended: in the parallel Source, a structural violation on a
non-empty offending line fails with an error value naming the broken rule
(wrong initial character of the identifier or separator line, missing
mate-suffix, missing lines of the four-line group), but an empty
identifier or separator line causes an out-of-range index panic instead;
and the sequential mode signals every violation by a panic (a failed
`assert`, or the same out-of-range index), modelled by `seqRun` returning
`none`. -/
theorem claimC5_amended_errors_and_panics :
    (∀ (c : Char) (cs : Line) (toks1 : List Line) (ea : Option String), c ≠ '@' →
      decodeOne ⟨(c :: cs) :: toks1, ea⟩ =
        .err ("malformed identifier line, missing initial @ sign") ⟨toks1, ea⟩) ∧
    (∀ (cs : Line) (toks1 : List Line) (ea : Option String),
      goHasSuffix ('@' :: cs) slash1 = false → goHasSuffix ('@' :: cs) slash2 = false →
      decodeOne ⟨('@' :: cs) :: toks1, ea⟩ =
        .err ("malformed identifier line, missing suffix") ⟨toks1, ea⟩) ∧
    (∀ (id : Line) (ea : Option String), validIdentifier id = true →
      decodeOne ⟨[id], ea⟩ = .err ("missing sequence line") ⟨[], ea⟩) ∧
    (∀ (id seqL : Line) (ea : Option String), validIdentifier id = true →
      decodeOne ⟨[id, seqL], ea⟩ = .err ("missing intermediate line") ⟨[], ea⟩) ∧
    (∀ (id seqL : Line) (d : Char) (ds : Line) (toks3 : List Line) (ea : Option String),
      validIdentifier id = true → d ≠ '+' →
      decodeOne ⟨id :: seqL :: (d :: ds) :: toks3, ea⟩ =
        .err ("malformed intermediate line, missing initial + sign") ⟨toks3, ea⟩) ∧
    (∀ (id seqL : Line) (d : Char) (ds : Line) (ea : Option String),
      validIdentifier id = true → d = '+' →
      decodeOne ⟨[id, seqL, d :: ds], ea⟩ = .err ("missing qualities line") ⟨[], ea⟩) ∧
    (∀ (toks1 : List Line) (ea : Option String),
      decodeOne ⟨[] :: toks1, ea⟩ = .panic ("runtime error: index out of range")) ∧
    (∀ (id seqL : Line) (toks3 : List Line) (ea : Option String),
      validIdentifier id = true →
      decodeOne ⟨id :: seqL :: [] :: toks3, ea⟩ =
        .panic ("runtime error: index out of range")) ∧
    (∀ (c : Char) (cs : Line) (rest : List Line), c ≠ '@' →
      seqRun ((c :: cs) :: rest) = none) ∧
    (∀ (rest : List Line), seqRun ([] :: rest) = none) ∧
    (∀ (cs : Line) (rest : List Line),
      goHasSuffix ('@' :: cs) slash1 = false → goHasSuffix ('@' :: cs) slash2 = false →
      seqRun (('@' :: cs) :: rest) = none) ∧
    (∀ (id : Line), validIdentifier id = true → seqRun [id] = none) ∧
    (∀ (id seqL : Line), validIdentifier id = true → seqRun [id, seqL] = none) ∧
    (∀ (id seqL : Line) (rest3 : List Line), validIdentifier id = true →
      seqRun (id :: seqL :: [] :: rest3) = none) ∧
    (∀ (id seqL : Line) (d : Char) (ds : Line) (rest3 : List Line),
      validIdentifier id = true → d ≠ '+' →
      seqRun (id :: seqL :: (d :: ds) :: rest3) = none) ∧
    (∀ (id seqL : Line) (d : Char) (ds : Line), validIdentifier id = true → d = '+' →
      seqRun [id, seqL, d :: ds] = none) := by
  refine ⟨?_, ?_, ?_, ?_, ?_, ?_, ?_, ?_, ?_, ?_, ?_, ?_, ?_, ?_, ?_, ?_⟩
  · intro c cs toks1 ea hc
    simp [decodeOne, hc]
  · intro cs toks1 ea hs1 hs2
    simp [decodeOne, hs1, hs2]
  · intro id ea hv
    obtain ⟨cs, rfl, -, -⟩ := validIdentifier_spec id hv
    have hs : (goHasSuffix ('@' :: cs) slash1 || goHasSuffix ('@' :: cs) slash2) = true := by
      simpa [validIdentifier] using hv
    rw [Bool.or_eq_true] at hs
    rcases hs with hs | hs <;> simp [decodeOne, hs]
  · intro id seqL ea hv
    obtain ⟨cs, rfl, -, -⟩ := validIdentifier_spec id hv
    have hs : (goHasSuffix ('@' :: cs) slash1 || goHasSuffix ('@' :: cs) slash2) = true := by
      simpa [validIdentifier] using hv
    rw [Bool.or_eq_true] at hs
    rcases hs with hs | hs <;> simp [decodeOne, hs]
  · intro id seqL d ds toks3 ea hv hd
    obtain ⟨cs, rfl, -, -⟩ := validIdentifier_spec id hv
    have hs : (goHasSuffix ('@' :: cs) slash1 || goHasSuffix ('@' :: cs) slash2) = true := by
      simpa [validIdentifier] using hv
    rw [Bool.or_eq_true] at hs
    rcases hs with hs | hs <;> simp [decodeOne, hs, hd]
  · intro id seqL d ds ea hv hd
    obtain ⟨cs, rfl, -, -⟩ := validIdentifier_spec id hv
    have hs : (goHasSuffix ('@' :: cs) slash1 || goHasSuffix ('@' :: cs) slash2) = true := by
      simpa [validIdentifier] using hv
    rw [Bool.or_eq_true] at hs
    rcases hs with hs | hs <;> simp [decodeOne, hs, hd]
  · intro toks1 ea
    simp [decodeOne]
  · intro id seqL toks3 ea hv
    obtain ⟨cs, rfl, -, -⟩ := validIdentifier_spec id hv
    have hs : (goHasSuffix ('@' :: cs) slash1 || goHasSuffix ('@' :: cs) slash2) = true := by
      simpa [validIdentifier] using hv
    rw [Bool.or_eq_true] at hs
    rcases hs with hs | hs <;> simp [decodeOne, hs]
  · intro c cs rest hc
    simp [seqRun, hc]
  · intro rest
    simp [seqRun]
  · intro cs rest hs1 hs2
    simp [seqRun, hs1, hs2]
  · intro id hv
    obtain ⟨cs, rfl, -, -⟩ := validIdentifier_spec id hv
    have hs : (goHasSuffix ('@' :: cs) slash1 || goHasSuffix ('@' :: cs) slash2) = true := by
      simpa [validIdentifier] using hv
    have ht := transformIdentifier_of_valid _ hv
    rw [Bool.or_eq_true] at hs
    rcases hs with hs | hs <;> simp [seqRun, hs, ht]
  · intro id seqL hv
    obtain ⟨cs, rfl, -, -⟩ := validIdentifier_spec id hv
    have hs : (goHasSuffix ('@' :: cs) slash1 || goHasSuffix ('@' :: cs) slash2) = true := by
      simpa [validIdentifier] using hv
    have ht := transformIdentifier_of_valid _ hv
    rw [Bool.or_eq_true] at hs
    rcases hs with hs | hs <;> simp [seqRun, hs, ht]
  · intro id seqL rest3 hv
    obtain ⟨cs, rfl, -, -⟩ := validIdentifier_spec id hv
    have hs : (goHasSuffix ('@' :: cs) slash1 || goHasSuffix ('@' :: cs) slash2) = true := by
      simpa [validIdentifier] using hv
    have ht := transformIdentifier_of_valid _ hv
    rw [Bool.or_eq_true] at hs
    rcases hs with hs | hs <;> simp [seqRun, hs, ht]
  · intro id seqL d ds rest3 hv hd
    obtain ⟨cs, rfl, -, -⟩ := validIdentifier_spec id hv
    have hs : (goHasSuffix ('@' :: cs) slash1 || goHasSuffix ('@' :: cs) slash2) = true := by
      simpa [validIdentifier] using hv
    have ht := transformIdentifier_of_valid _ hv
    rw [Bool.or_eq_true] at hs
    rcases hs with hs | hs <;> simp [seqRun, hs, ht, hd]
  · intro id seqL d ds hv hd
    subst hd
    obtain ⟨cs, rfl, -, -⟩ := validIdentifier_spec id hv
    have hs : (goHasSuffix ('@' :: cs) slash1 || goHasSuffix ('@' :: cs) slash2) = true := by
      simpa [validIdentifier] using hv
    have ht := transformIdentifier_of_valid _ hv
    rw [Bool.or_eq_true] at hs
    rcases hs with hs | hs <;> simp [seqRun, hs, ht]

/-- Witness for the amended C5: the wrong-initial-character rule at the
concrete line `"Xa"`, the missing-sequence-line rule after the valid
identifier `"@a/1"`, and two sequential-mode panics: the missing
mate-suffix at `"@a"` and the missing sequence line at `"@a/1"`. -/
theorem claimC5_witness :
    (('X' : Char) ≠ '@' ∧
      decodeOne ⟨[('X' : Char) :: ("a").toList], none⟩ =
        .err ("malformed identifier line, missing initial @ sign") ⟨[], none⟩) ∧
    (validIdentifier (("@a/1").toList) = true ∧
      decodeOne ⟨[("@a/1").toList], none⟩ = .err ("missing sequence line") ⟨[], none⟩) ∧
    (goHasSuffix ('@' :: ("a").toList) slash1 = false ∧
      goHasSuffix ('@' :: ("a").toList) slash2 = false ∧
      seqRun [('@' :: ("a").toList)] = none) ∧
    (validIdentifier (("@a/1").toList) = true ∧ seqRun [("@a/1").toList] = none) :=
  ⟨⟨by decide, claimC5_amended_errors_and_panics.1 'X' (("a").toList) [] none (by decide)⟩,
    ⟨by decide, claimC5_amended_errors_and_panics.2.2.1 (("@a/1").toList) none (by decide)⟩,
    ⟨by decide, by decide,
      claimC5_amended_errors_and_panics.2.2.2.2.2.2.2.2.2.2.1 (("a").toList) [] (by decide)
        (by decide)⟩,
    ⟨by decide,
      claimC5_amended_errors_and_panics.2.2.2.2.2.2.2.2.2.2.2.1 (("@a/1").toList) (by decide)⟩⟩

/-! ## Correctness of the strict-order sink -/

theorem findKey_eq_none_iff (e : Nat) (buf : List (Nat × α)) :
    findKey e buf = none ↔ ∀ p ∈ buf, p.1 ≠ e := by
  induction buf with
  | nil => simp [findKey]
  | cons p rest ih =>
    obtain ⟨k, b⟩ := p
    by_cases hk : k = e
    · subst hk
      simp only [findKey, if_pos rfl]
      constructor
      · intro h
        exact Option.noConfusion h
      · intro h
        exact absurd rfl (h (k, b) (List.mem_cons_self _ _))
    · simp only [findKey, if_neg hk]
      rw [ih]
      constructor
      · intro h p hp
        rcases List.mem_cons.mp hp with rfl | hm
        · exact hk
        · exact h p hm
      · intro h p hp
        exact h p (List.mem_cons_of_mem _ hp)

theorem mem_of_findKey (e : Nat) (buf : List (Nat × α)) (b : α)
    (h : findKey e buf = some b) : (e, b) ∈ buf := by
  induction buf with
  | nil => simp [findKey] at h
  | cons p rest ih =>
    obtain ⟨k, c⟩ := p
    by_cases hk : k = e
    · subst hk
      simp only [findKey, if_pos rfl] at h
      injection h with h
      subst h
      exact List.mem_cons_self _ _
    · simp only [findKey, if_neg hk] at h
      exact List.mem_cons_of_mem _ (ih h)

theorem removeKey_perm (e : Nat) (buf : List (Nat × α)) (b : α)
    (h : findKey e buf = some b) : buf.Perm ((e, b) :: removeKey e buf) := by
  induction buf with
  | nil => simp [findKey] at h
  | cons p rest ih =>
    obtain ⟨k, c⟩ := p
    by_cases hk : k = e
    · subst hk
      simp only [findKey, if_pos rfl] at h
      injection h with h
      subst h
      rw [removeKey, if_pos rfl]
    · simp only [findKey, if_neg hk] at h
      rw [removeKey, if_neg hk]
      exact ((ih h).cons (k, c)).trans (List.Perm.swap _ _ _)

theorem mem_removeKey (e : Nat) (buf : List (Nat × α)) (p : Nat × α)
    (h : p ∈ removeKey e buf) : p ∈ buf := by
  induction buf with
  | nil => simp [removeKey] at h
  | cons q rest ih =>
    obtain ⟨k, c⟩ := q
    by_cases hk : k = e
    · rw [removeKey, if_pos hk] at h
      exact List.mem_cons_of_mem _ h
    · rw [removeKey, if_neg hk] at h
      rcases List.mem_cons.mp h with rfl | hm
      · exact List.mem_cons_self _ _
      · exact List.mem_cons_of_mem _ (ih hm)

theorem removeKey_key_ne (e : Nat) (buf : List (Nat × α)) (b : α)
    (hnd : (buf.map Prod.fst).Nodup) (h : findKey e buf = some b) :
    ∀ p ∈ removeKey e buf, p.1 ≠ e := by
  intro p hp he
  have hperm := (removeKey_perm e buf b h).map Prod.fst
  have hnd' := hperm.nodup_iff.mp hnd
  rw [List.map_cons, List.nodup_cons] at hnd'
  have hm : p.1 ∈ (removeKey e buf).map Prod.fst := List.mem_map_of_mem Prod.fst hp
  rw [he] at hm
  exact hnd'.1 hm

theorem drain_eq_none (e : Nat) (buf deliv : List (Nat × α)) (h : findKey e buf = none) :
    drain e buf deliv = ⟨e, buf, deliv⟩ := by
  rw [drain]
  split
  · rfl
  · rename_i b heq
    rw [h] at heq
    exact Option.noConfusion heq

theorem drain_eq_some (e : Nat) (buf deliv : List (Nat × α)) (b : α)
    (h : findKey e buf = some b) :
    drain e buf deliv = drain (e + 1) (removeKey e buf) (deliv ++ [(e, b)]) := by
  rw [drain]
  split
  · rename_i heq
    rw [h] at heq
    exact Option.noConfusion heq
  · rename_i b' heq
    rw [h] at heq
    injection heq with heq
    subst heq
    rfl

theorem drop_range' : ∀ (i s n : Nat), (List.range' s n).drop i = List.range' (s + i) (n - i) := by
  intro i
  induction i with
  | zero => simp
  | succ i ih =>
    intro s n
    cases n with
    | zero => simp
    | succ n =>
      rw [List.range'_succ, List.drop_succ_cons, ih (s + 1) n]
      congr 1 <;> omega

theorem keys_range_getElem (src : List (Nat × α))
    (hkeys : src.map Prod.fst = List.range src.length) (i : Nat) (hi : i < src.length) :
    src[i].1 = i := by
  have h1 : (src.map Prod.fst)[i]? = some i := by
    rw [hkeys, List.getElem?_eq_getElem (by simpa using hi), List.getElem_range]
  rw [List.getElem?_map, List.getElem?_eq_getElem hi] at h1
  simpa using h1

theorem keys_range_mem (src : List (Nat × α))
    (hkeys : src.map Prod.fst = List.range src.length) (k : Nat) (b : α)
    (hmem : (k, b) ∈ src) : ∃ hk : k < src.length, src[k] = (k, b) := by
  obtain ⟨i, hi, hib⟩ := List.getElem_of_mem hmem
  have hk := keys_range_getElem src hkeys i hi
  rw [hib] at hk
  have hk' : k = i := hk
  subst hk'
  exact ⟨hi, hib⟩

theorem keys_range_drop (src : List (Nat × α))
    (hkeys : src.map Prod.fst = List.range src.length) (e : Nat) :
    (src.drop e).map Prod.fst = List.range' e (src.length - e) := by
  rw [List.map_drop, hkeys, List.range_eq_range', drop_range']
  congr 1
  omega

theorem key_ge_of_mem_drop (src : List (Nat × α))
    (hkeys : src.map Prod.fst = List.range src.length) (e : Nat) (p : Nat × α)
    (hp : p ∈ src.drop e) : e ≤ p.1 ∧ p.1 < src.length := by
  have hm : p.1 ∈ (src.drop e).map Prod.fst := List.mem_map_of_mem Prod.fst hp
  rw [keys_range_drop src hkeys, List.mem_range'_1] at hm
  omega

/-- Invariant preservation of the drain loop: if the delivered list is the
`src`-prefix below `e`, the buffer plus the yet-unprocessed arrivals are a
permutation of the `src`-suffix from `e`, and every buffered batch has
sequence number at least `e`, then the same holds (with a strict bound)
after draining. -/
theorem drain_inv (src : List (Nat × α))
    (hkeys : src.map Prod.fst = List.range src.length) :
    ∀ (fuel : Nat) (buf : List (Nat × α)), buf.length ≤ fuel →
    ∀ (e : Nat) (deliv rem : List (Nat × α)),
      deliv = src.take e →
      (buf ++ rem).Perm (src.drop e) →
      (∀ p ∈ buf, e ≤ p.1) →
      (drain e buf deliv).delivered = src.take (drain e buf deliv).expected ∧
      ((drain e buf deliv).buffer ++ rem).Perm (src.drop (drain e buf deliv).expected) ∧
      (∀ p ∈ (drain e buf deliv).buffer, (drain e buf deliv).expected < p.1) := by
  intro fuel
  induction fuel with
  | zero =>
    intro buf hbuf e deliv rem h1 h2 h3
    have hb : buf = [] := List.length_eq_zero.mp (by omega)
    subst hb
    rw [drain_eq_none e [] deliv rfl]
    exact ⟨h1, h2, by simp⟩
  | succ fuel ih =>
    intro buf hbuf e deliv rem h1 h2 h3
    cases hfk : findKey e buf with
    | none =>
      rw [drain_eq_none e buf deliv hfk]
      refine ⟨h1, h2, ?_⟩
      intro p hp
      have h4 := h3 p hp
      have h5 := (findKey_eq_none_iff e buf).mp hfk p hp
      show e < p.1
      omega
    | some b =>
      rw [drain_eq_some e buf deliv b hfk]
      have hmem0 : (e, b) ∈ buf := mem_of_findKey e buf b hfk
      have hmemd : (e, b) ∈ src.drop e := h2.mem_iff.mp (List.mem_append_left rem hmem0)
      have hmems : (e, b) ∈ src := List.mem_of_mem_drop hmemd
      obtain ⟨hlt, hgete⟩ := keys_range_mem src hkeys e b hmems
      have p1 : deliv ++ [(e, b)] = src.take (e + 1) := by
        rw [h1, List.take_succ, List.getElem?_eq_getElem hlt, hgete]
        simp
      have p2 : (removeKey e buf ++ rem).Perm (src.drop (e + 1)) := by
        have hd : src.drop e = (e, b) :: src.drop (e + 1) := by
          rw [List.drop_eq_getElem_cons hlt, hgete]
        have hbp : (buf ++ rem).Perm ((e, b) :: (removeKey e buf ++ rem)) := by
          simpa using (removeKey_perm e buf b hfk).append_right rem
        have hx := hbp.symm.trans h2
        rw [hd] at hx
        exact hx.cons_inv
      have hnd : (buf.map Prod.fst).Nodup := by
        have hmap := h2.map Prod.fst
        have hdnd : ((src.drop e).map Prod.fst).Nodup := by
          rw [keys_range_drop src hkeys]
          exact List.nodup_range' e (src.length - e)
        have hnd2 := hmap.nodup_iff.mpr hdnd
        rw [List.map_append] at hnd2
        exact List.Nodup.sublist (List.sublist_append_left _ _) hnd2
      have p3 : ∀ p ∈ removeKey e buf, e + 1 ≤ p.1 := by
        intro p hp
        have hge := h3 p (mem_removeKey e buf p hp)
        have hne := removeKey_key_ne e buf b hnd hfk p hp
        omega
      exact ih (removeKey e buf) (by have := removeKey_length_lt e buf hfk; omega)
        (e + 1) _ rem p1 p2 p3

/-- Invariant preservation over the whole arrival sequence. -/
theorem sink_foldl_inv (src : List (Nat × α))
    (hkeys : src.map Prod.fst = List.range src.length) :
    ∀ (rem : List (Nat × α)) (st : SinkState α),
      st.delivered = src.take st.expected →
      (st.buffer ++ rem).Perm (src.drop st.expected) →
      (∀ p ∈ st.buffer, st.expected < p.1) →
      ((rem.foldl sinkArrive st).delivered =
        src.take (rem.foldl sinkArrive st).expected) ∧
      ((rem.foldl sinkArrive st).buffer).Perm
        (src.drop (rem.foldl sinkArrive st).expected) ∧
      (∀ p ∈ (rem.foldl sinkArrive st).buffer,
        (rem.foldl sinkArrive st).expected < p.1) := by
  intro rem
  induction rem with
  | nil =>
    intro st h1 h2 h3
    exact ⟨h1, by simpa using h2, h3⟩
  | cons a rem' ih =>
    intro st h1 h2 h3
    obtain ⟨e, buf0, deliv0⟩ := st
    rw [List.foldl_cons]
    have hamem : a ∈ src.drop e := h2.mem_iff.mp (by simp)
    have hakey := key_ge_of_mem_drop src hkeys e a hamem
    by_cases hae : a.1 = e
    · subst hae
      have harr : sinkArrive ⟨a.1, buf0, deliv0⟩ a = drain (a.1 + 1) buf0 (deliv0 ++ [a]) := by
        simp [sinkArrive]
      rw [harr]
      have hamems : a ∈ src := List.mem_of_mem_drop hamem
      obtain ⟨hlt, hgete⟩ := keys_range_mem src hkeys a.1 a.2 (by rw [Prod.mk.eta]; exact hamems)
      have hgete' : src[a.1] = a := by rw [hgete, Prod.mk.eta]
      have p1 : deliv0 ++ [a] = src.take (a.1 + 1) := by
        rw [show deliv0 = src.take a.1 from h1, List.take_succ,
          List.getElem?_eq_getElem hlt, hgete']
        simp
      have p2 : (buf0 ++ rem').Perm (src.drop (a.1 + 1)) := by
        have hd : src.drop a.1 = a :: src.drop (a.1 + 1) := by
          rw [List.drop_eq_getElem_cons hlt, hgete']
        have hx : (buf0 ++ a :: rem').Perm (a :: (buf0 ++ rem')) := List.perm_middle
        have hy := hx.symm.trans h2
        rw [hd] at hy
        exact hy.cons_inv
      have p3 : ∀ p ∈ buf0, a.1 + 1 ≤ p.1 := fun p hp => h3 p hp
      have hdr := drain_inv src hkeys buf0.length buf0 le_rfl (a.1 + 1)
        (deliv0 ++ [a]) rem' p1 p2 p3
      exact ih _ hdr.1 hdr.2.1 hdr.2.2
    · have harr : sinkArrive ⟨e, buf0, deliv0⟩ a = ⟨e, a :: buf0, deliv0⟩ := by
        simp [sinkArrive, hae]
      rw [harr]
      have p2 : ((a :: buf0) ++ rem').Perm (src.drop e) := by
        have hx : ((a :: buf0) ++ rem') = a :: (buf0 ++ rem') := rfl
        rw [hx]
        exact List.perm_middle.symm.trans h2
      have p3 : ∀ p ∈ a :: buf0, e < p.1 := by
        intro p hp
        rcases List.mem_cons.mp hp with rfl | hm
        · have h4 := hakey.1
          omega
        · exact h3 p hm
      exact ih _ h1 p2 p3

/-- The strict-order sink delivers exactly the source's batch sequence:
for any arrival order that is a permutation of batches numbered
`0, 1, ..., B-1`, the delivered sequence is those batches in ascending
sequence-number order, with no gaps and no repeats. -/
theorem sink_delivers_in_order (src arr : List (Nat × α))
    (hkeys : src.map Prod.fst = List.range src.length)
    (hperm : arr.Perm src) : sinkRun arr = src := by
  obtain ⟨h1, h2, h3⟩ := sink_foldl_inv src hkeys arr ⟨0, [], []⟩ (by simp)
    (by simpa using hperm) (by simp)
  rw [sinkRun, h1]
  set st := arr.foldl sinkArrive (⟨0, [], []⟩ : SinkState α) with hst
  by_cases hlt : st.expected < src.length
  · exfalso
    have hmem : src[st.expected] ∈ src.drop st.expected := by
      rw [List.drop_eq_getElem_cons hlt]
      exact List.mem_cons_self _ _
    have hmem' : src[st.expected] ∈ st.buffer := h2.symm.mem_iff.mp hmem
    have hb := h3 _ hmem'
    rw [keys_range_getElem src hkeys st.expected hlt] at hb
    omega
  · push_neg at hlt
    exact List.take_of_length_le hlt

/-- C1: for every input of `B` batches produced by the Source (numbered
`0, 1, ..., B-1`) and every order in which the workers complete them — any
permutation of the batch sequence, which covers every worker count
`W ≥ 1` and any per-batch timing — the strict-order sink delivers to its
writer exactly the source's batches, in ascending sequence-number order
with no gaps and no repeats, so records are written in the order they
were read. -/
theorem claimC1_ordered_delivery (src arr : List (Nat × List Record))
    (hkeys : src.map Prod.fst = List.range src.length)
    (hperm : arr.Perm src) :
    sinkRun arr = src ∧ (sinkRun arr).map Prod.fst = List.range src.length := by
  have h := sink_delivers_in_order src arr hkeys hperm
  exact ⟨h, by rw [h, hkeys]⟩

def c1src : List (Nat × List Record) :=
  [(0, [⟨("a").toList, [], []⟩]), (1, [⟨("b").toList, [], []⟩]), (2, [⟨("c").toList, [], []⟩])]

def c1arr : List (Nat × List Record) :=
  [(2, [⟨("c").toList, [], []⟩]), (0, [⟨("a").toList, [], []⟩]), (1, [⟨("b").toList, [], []⟩])]

/-- Witness for C1 at a concrete out-of-order arrival of three batches. -/
theorem claimC1_witness :
    c1src.map Prod.fst = List.range c1src.length ∧ c1arr.Perm c1src ∧
    (sinkRun c1arr = c1src ∧ (sinkRun c1arr).map Prod.fst = List.range c1src.length) :=
  ⟨by decide, by decide, claimC1_ordered_delivery c1src c1arr (by decide) (by decide)⟩

/-! ## From well-formed input to the full parallel pipeline -/

theorem parseAll_inversion (toks : List Line) (rs : List Record)
    (h : parseAll toks = some rs) :
    (toks = [] ∧ rs = []) ∨
    (∃ id seqL sepL qualL rest rs', toks = id :: seqL :: sepL :: qualL :: rest ∧
      validGroup id seqL sepL qualL = true ∧ parseAll rest = some rs' ∧
      rs = ⟨id, seqL, qualL⟩ :: rs') := by
  rcases toks with _ | ⟨id, _ | ⟨seqL, _ | ⟨sepL, _ | ⟨qualL, rest⟩⟩⟩⟩
  · left
    refine ⟨rfl, ?_⟩
    simpa [parseAll] using h.symm
  · simp [parseAll] at h
  · simp [parseAll] at h
  · simp [parseAll] at h
  · right
    simp only [parseAll] at h
    by_cases hg : validGroup id seqL sepL qualL = true
    · rw [if_pos hg] at h
      cases hpr : parseAll rest with
      | none =>
        rw [hpr] at h
        exact absurd h (by simp)
      | some rs' =>
        rw [hpr] at h
        simp only [Option.map_some'] at h
        injection h with h
        exact ⟨id, seqL, sepL, qualL, rest, rs', rfl, hg, hpr, h.symm⟩
    · rw [if_neg hg] at h
      exact absurd h (by simp)

theorem parseAll_length : ∀ (rs : List Record) (toks : List Line),
    parseAll toks = some rs → toks.length = 4 * rs.length := by
  intro rs
  induction rs with
  | nil =>
    intro toks h
    rcases parseAll_inversion toks [] h with ⟨rfl, _⟩ | ⟨_, _, _, _, _, _, _, _, _, heq⟩
    · simp
    · exact absurd heq (by simp)
  | cons r rs2 ih =>
    intro toks h
    rcases parseAll_inversion toks _ h with ⟨_, heq⟩ | ⟨id, seqL, sepL, qualL, rest, rs', rfl, hg, hpr, heq⟩
    · exact absurd heq (by simp)
    · injection heq with h1 h2
      subst h2
      simp only [List.length_cons]
      rw [ih rest hpr]
      omega

theorem parseAll_valid : ∀ (rs : List Record) (toks : List Line),
    parseAll toks = some rs → ∀ r ∈ rs, validIdentifier r.identifier = true := by
  intro rs
  induction rs with
  | nil =>
    intro toks h r hr
    simp at hr
  | cons r0 rs2 ih =>
    intro toks h r hr
    rcases parseAll_inversion toks _ h with ⟨_, heq⟩ | ⟨id, seqL, sepL, qualL, rest, rs', htoks, hg, hpr, heq⟩
    · exact absurd heq (by simp)
    · injection heq with h1 h2
      rcases List.mem_cons.mp hr with rfl | hm
      · rw [h1]
        simp only [validGroup, Bool.and_eq_true] at hg
        exact hg.1
      · exact ih rest (by rw [h2]; exact hpr) r hm

/-- The `Fetch` loop on a well-formed stream with a clean scanner and no
latched error decodes exactly `min m (number of remaining records)`
records, leaves a well-formed remainder, and reports no error. -/
theorem fetchAux_wf (m : Nat) :
    ∀ (toks : List Line) (rs : List Record) (acc : List Record) (k : Nat),
      parseAll toks = some rs →
      ∃ toks', fetchAux none m ⟨toks, none⟩ acc k =
          .ret (k + min m rs.length)
            ⟨⟨toks', none⟩, some (acc ++ rs.take (min m rs.length)), none⟩ ∧
        parseAll toks' = some (rs.drop (min m rs.length)) := by
  induction m with
  | zero =>
    intro toks rs acc k hp
    refine ⟨toks, ?_, ?_⟩
    · simp [fetchAux]
    · simpa using hp
  | succ m ih =>
    intro toks rs acc k hp
    rcases parseAll_inversion toks rs hp with ⟨rfl, rfl⟩ | ⟨id, seqL, sepL, qualL, rest, rs', rfl, hg, hpr, rfl⟩
    · refine ⟨[], ?_, by simp [parseAll]⟩
      rw [fetchAux]
      simp [decodeOne]
    · obtain ⟨toks', hfa, hpa⟩ := ih rest rs' (acc ++ [⟨id, seqL, qualL⟩]) (k + 1) hpr
      refine ⟨toks', ?_, ?_⟩
      · rw [fetchAux, decodeOne_ok_of_validGroup id seqL sepL qualL rest none hg]
        dsimp only
        rw [hfa]
        congr 1
        · simp only [List.length_cons, Nat.succ_min_succ]
          omega
        · congr 1
          simp only [List.length_cons, Nat.succ_min_succ, List.take_succ_cons]
          simp [List.append_assoc]
      · simp only [List.length_cons, Nat.succ_min_succ, List.drop_succ_cons]
        exact hpa

theorem mapOption_some_of_all (f : α → Option β) :
    ∀ l : List α, (∀ a ∈ l, ∃ b, f a = some b) → ∃ bl, mapOption f l = some bl := by
  intro l
  induction l with
  | nil => intro _; exact ⟨[], rfl⟩
  | cons a l ih =>
    intro h
    obtain ⟨b, hb⟩ := h a (List.mem_cons_self _ _)
    obtain ⟨bl, hbl⟩ := ih (fun x hx => h x (List.mem_cons_of_mem _ hx))
    refine ⟨b :: bl, ?_⟩
    rw [mapOption, hb, hbl]

theorem mapOption_length (f : α → Option β) :
    ∀ (l : List α) (bl : List β), mapOption f l = some bl → bl.length = l.length := by
  intro l
  induction l with
  | nil =>
    intro bl h
    injection h with h
    subst h
    rfl
  | cons a l ih =>
    intro bl h
    rw [mapOption] at h
    cases hfa : f a with
    | none =>
      rw [hfa] at h
      cases hml : mapOption f l <;> (rw [hml] at h; exact Option.noConfusion h)
    | some b =>
      cases hml : mapOption f l with
      | none =>
        rw [hfa, hml] at h
        exact Option.noConfusion h
      | some bl2 =>
        rw [hfa, hml] at h
        injection h with h
        subst h
        simp [ih bl2 hml]

theorem mapOption_append (f : α → Option β) :
    ∀ (l₁ l₂ : List α) (b₁ b₂ : List β), mapOption f l₁ = some b₁ →
      mapOption f l₂ = some b₂ → mapOption f (l₁ ++ l₂) = some (b₁ ++ b₂) := by
  intro l₁
  induction l₁ with
  | nil =>
    intro l₂ b₁ b₂ h1 h2
    injection h1 with h1
    subst h1
    simpa using h2
  | cons a l ih =>
    intro l₂ b₁ b₂ h1 h2
    rw [mapOption] at h1
    cases hfa : f a with
    | none =>
      rw [hfa] at h1
      cases hml : mapOption f l <;> (rw [hml] at h1; exact Option.noConfusion h1)
    | some b =>
      cases hml : mapOption f l with
      | none =>
        rw [hfa, hml] at h1
        exact Option.noConfusion h1
      | some bl =>
        rw [hfa, hml] at h1
        injection h1 with h1
        subst h1
        rw [List.cons_append, mapOption, hfa, ih l₂ bl b₂ hml h2]
        rfl

theorem joinBatches_append (l₁ l₂ : List (List Record)) :
    joinBatches (l₁ ++ l₂) = joinBatches l₁ ++ joinBatches l₂ := by
  induction l₁ with
  | nil => simp [joinBatches]
  | cons b bs ih => simp [joinBatches, ih]

theorem mem_joinBatches_of_mem (bs : List (List Record)) (b : List Record) (r : Record)
    (hb : b ∈ bs) (hr : r ∈ b) : r ∈ joinBatches bs := by
  induction bs with
  | nil => simp at hb
  | cons b0 bs2 ih =>
    rw [joinBatches]
    rcases List.mem_cons.mp hb with rfl | hm
    · exact List.mem_append_left _ hr
    · exact List.mem_append_right _ (ih hm)

/-- Transforming a whole batch sequence and then flattening equals
flattening and then transforming record-wise. -/
theorem mapOption_joinBatches (bs tbs : List (List Record))
    (h : mapOption transformBatch bs = some tbs) :
    mapOption transformRecord (joinBatches bs) = some (joinBatches tbs) := by
  induction bs generalizing tbs with
  | nil =>
    injection h with h
    subst h
    rfl
  | cons b bs2 ih =>
    rw [mapOption] at h
    cases hfb : transformBatch b with
    | none =>
      rw [hfb] at h
      cases hml : mapOption transformBatch bs2 <;> (rw [hml] at h; exact Option.noConfusion h)
    | some tb =>
      cases hml : mapOption transformBatch bs2 with
      | none =>
        rw [hfb, hml] at h
        exact Option.noConfusion h
      | some tbs2 =>
        rw [hfb, hml] at h
        injection h with h
        subst h
        rw [joinBatches, joinBatches]
        exact mapOption_append transformRecord b (joinBatches bs2) tb (joinBatches tbs2)
          hfb (ih tbs2 hml)

theorem numbered_length (k : Nat) (l : List α) : (numbered k l).length = l.length := by
  induction l generalizing k with
  | nil => rfl
  | cons a t ih => simp [numbered, ih]

theorem numbered_map_snd (k : Nat) (l : List α) : (numbered k l).map Prod.snd = l := by
  induction l generalizing k with
  | nil => rfl
  | cons a t ih => simp [numbered, ih]

theorem numbered_map_fst (k : Nat) (l : List α) :
    (numbered k l).map Prod.fst = List.range' k l.length := by
  induction l generalizing k with
  | nil => rfl
  | cons a t ih => simp [numbered, ih, List.range'_succ]

theorem filterMap_get?_range : ∀ (l : List α),
    (List.range l.length).filterMap (fun i => l.get? i) = l := by
  intro l
  induction l with
  | nil => rfl
  | cons a t ih =>
    rw [List.length_cons, List.range_succ_eq_map, List.filterMap_cons]
    rw [List.filterMap_map]
    have hcomp : ((fun i => (a :: t).get? i) ∘ Nat.succ) = fun i => t.get? i := by
      funext i
      simp
    rw [hcomp, ih]
    rfl

/-- Any schedule that is a permutation of the batch indices selects a
permutation of the batch sequence. -/
theorem schedule_perm (l : List α) (σ : List Nat) (hσ : σ.Perm (List.range l.length)) :
    (σ.filterMap (fun i => l.get? i)).Perm l := by
  have h := List.Perm.filterMap (fun i => l.get? i) hσ
  rw [filterMap_get?_range] at h
  exact h

/-- The driver's fetch loop on a well-formed stream succeeds (no error, no
panic) and its batches flatten to exactly the stream's records, in order,
for every positive batch size. -/
theorem fetchAll_wf : ∀ (fuel : Nat) (toks : List Line) (rs : List Record) (n : Nat)
    (d : Option (List Record)) (acc : List (List Record)),
    parseAll toks = some rs → 1 ≤ n → rs.length + 1 ≤ fuel →
    ∃ bs, fetchAll n fuel ⟨⟨toks, none⟩, d, none⟩ acc = some bs ∧
      joinBatches bs = joinBatches acc ++ rs := by
  intro fuel
  induction fuel with
  | zero =>
    intro toks rs n d acc hp hn hf
    omega
  | succ fuel ih =>
    intro toks rs n d acc hp hn hf
    obtain ⟨toks', hfa, hpa⟩ := fetchAux_wf n toks rs [] 0 hp
    have hfetch : fetch (⟨⟨toks, none⟩, d, none⟩ : Source) n =
        .ret (0 + min n rs.length)
          ⟨⟨toks', none⟩, some ([] ++ rs.take (min n rs.length)), none⟩ := hfa
    cases rs with
    | nil =>
      refine ⟨acc, ?_, by simp [joinBatches]⟩
      rw [fetchAll, hfetch]
      simp
    | cons r rs2 =>
      have hk : 1 ≤ min n (r :: rs2).length := by
        have h1 : 1 ≤ (r :: rs2).length := by simp
        omega
      obtain ⟨bs, hbs, hjoin⟩ := ih toks' ((r :: rs2).drop (min n (r :: rs2).length)) n
        (some ([] ++ (r :: rs2).take (min n (r :: rs2).length)))
        (acc ++ [[] ++ (r :: rs2).take (min n (r :: rs2).length)]) hpa hn
        (by
          rw [List.length_drop]
          omega)
      refine ⟨bs, ?_, ?_⟩
      · rw [fetchAll, hfetch]
        dsimp only
        rw [if_neg (by omega : ¬ 0 + min n (r :: rs2).length = 0)]
        exact hbs
      · rw [hjoin, joinBatches_append]
        simp only [joinBatches, List.nil_append, List.append_nil]
        rw [List.append_assoc, List.take_append_drop]

/-- On well-formed input, the parallel pipeline, with any positive batch
size and any valid completion schedule, produces exactly the canonical
output: the input's records, transformed, emitted in input order. -/
theorem parallelRun_eq_canonical (lines : List Line) (rs : List Record) (n : Nat)
    (σ : List Nat) (hp : parseAll lines = some rs) (hn : 1 ≤ n)
    (hσ : ValidSchedule lines n σ) :
    ∃ out, parallelRun lines n σ = some out ∧ canonicalOutput lines = some out := by
  have hlen : rs.length + 1 ≤ lines.length + 1 := by
    have := parseAll_length rs lines hp
    omega
  obtain ⟨bs, hbs, hjoin⟩ := fetchAll_wf (lines.length + 1) lines rs n none [] hp hn hlen
  have hbs' : fetchAll n (lines.length + 1) (initSource lines) [] = some bs := hbs
  have hjoin' : joinBatches bs = rs := by
    rw [hjoin]
    rfl
  have hvalid := parseAll_valid rs lines hp
  have hall : ∀ b ∈ bs, ∃ tb, transformBatch b = some tb := by
    intro b hb
    apply mapOption_some_of_all
    intro r hr
    have hrv : validIdentifier r.identifier = true := by
      apply hvalid
      rw [← hjoin']
      exact mem_joinBatches_of_mem bs b r hb hr
    refine ⟨{ r with identifier := ((r.identifier.drop (sliceStart r.identifier)).take (r.identifier.length - 2 - sliceStart r.identifier)) }, ?_⟩
    rw [transformRecord, transformIdentifier_of_valid _ hrv]
    rfl
  obtain ⟨tbs, htbs⟩ := mapOption_some_of_all transformBatch bs hall
  have hjointb : mapOption transformRecord rs = some (joinBatches tbs) := by
    rw [← hjoin']
    exact mapOption_joinBatches bs tbs htbs
  have hcan : canonicalOutput lines = some (emitBatch (joinBatches tbs)) := by
    rw [canonicalOutput, hp]
    dsimp only
    rw [hjointb]
  obtain ⟨bs₂, hbs₂, hperm⟩ := hσ
  rw [hbs'] at hbs₂
  injection hbs₂ with hbs₂
  subst hbs₂
  have hlen2 : tbs.length = bs.length := mapOption_length transformBatch bs tbs htbs
  have hperm' : σ.Perm (List.range (numbered 0 tbs).length) := by
    rw [numbered_length, hlen2]
    exact hperm
  have hkeys : (numbered 0 tbs).map Prod.fst = List.range (numbered 0 tbs).length := by
    rw [numbered_map_fst, numbered_length, List.range_eq_range']
  have hsink : sinkRun (σ.filterMap (fun i => (numbered 0 tbs).get? i)) = numbered 0 tbs :=
    sink_delivers_in_order _ _ hkeys (schedule_perm (numbered 0 tbs) σ hperm')
  refine ⟨emitBatch (joinBatches tbs), ?_, hcan⟩
  rw [parallelRun, hbs']
  dsimp only
  rw [htbs]
  dsimp only
  rw [hsink, numbered_map_snd]

/-- C2: for every well-formed input, the parallel pipeline's output bytes
are the same for any two positive batch sizes and any two valid completion
schedules — in particular for the schedules produced by worker bound
`W = 1` and by `W = 8` — and the run succeeds; the output is a
deterministic function of the input, independent of the degree of
parallelism. -/
theorem claimC2_output_independent_of_parallelism (lines : List Line) (rs : List Record)
    (n₁ n₂ : Nat) (σ₁ σ₂ : List Nat) (hp : parseAll lines = some rs)
    (h1 : 1 ≤ n₁) (h2 : 1 ≤ n₂)
    (hσ₁ : ValidSchedule lines n₁ σ₁) (hσ₂ : ValidSchedule lines n₂ σ₂) :
    parallelRun lines n₁ σ₁ = parallelRun lines n₂ σ₂ ∧
    (parallelRun lines n₁ σ₁).isSome = true := by
  obtain ⟨o₁, ho₁, hc₁⟩ := parallelRun_eq_canonical lines rs n₁ σ₁ hp h1 hσ₁
  obtain ⟨o₂, ho₂, hc₂⟩ := parallelRun_eq_canonical lines rs n₂ σ₂ hp h2 hσ₂
  have ho : o₁ = o₂ := by
    rw [hc₁] at hc₂
    exact Option.some.inj hc₂
  rw [ho₁, ho₂, ho]
  exact ⟨rfl, rfl⟩

def c2lines : List Line :=
  [("@a b/1").toList, ("A").toList, ("+").toList, ("I").toList,
    ("@c d/2").toList, ("G").toList, ("+").toList, ("J").toList]

def c2recs : List Record :=
  [⟨("@a b/1").toList, ("A").toList, ("I").toList⟩,
    ⟨("@c d/2").toList, ("G").toList, ("J").toList⟩]

def c2bs1 : List (List Record) :=
  [[⟨("@a b/1").toList, ("A").toList, ("I").toList⟩],
    [⟨("@c d/2").toList, ("G").toList, ("J").toList⟩]]

def c2bs2 : List (List Record) := [c2recs]

/-- Witness for C2: a two-record input run with batch size 1 under the
out-of-order schedule `[1, 0]` and with batch size 2 under the schedule
`[0]` produces byte-identical output. -/
theorem claimC2_witness :
    parseAll c2lines = some c2recs ∧ 1 ≤ 1 ∧ 1 ≤ 2 ∧
    ValidSchedule c2lines 1 [1, 0] ∧ ValidSchedule c2lines 2 [0] ∧
    (parallelRun c2lines 1 [1, 0] = parallelRun c2lines 2 [0] ∧
      (parallelRun c2lines 1 [1, 0]).isSome = true) :=
  ⟨by decide, le_rfl, by omega, ⟨c2bs1, by decide, by decide⟩, ⟨c2bs2, by decide, by decide⟩,
    claimC2_output_independent_of_parallelism c2lines c2recs 1 2 [1, 0] [0] (by decide)
      le_rfl (by omega) ⟨c2bs1, by decide, by decide⟩ ⟨c2bs2, by decide, by decide⟩⟩
